import Mathlib

/-!
Shallow embedding of `src/bin/calc_sim.py` (GeminiHydra similarity ranker).

The script has two parts:
* `cosine_similarity(v1, v2)` — pure cosine similarity over Python lists,
  with zip-to-shortest dot product and a zero-magnitude guard;
* `main()` — parses a query vector, loads a list of memory records, scores
  every record that has a non-empty `embedding`, sorts the scored results by
  score descending (Python `list.sort` is a stable sort), truncates to
  `top_k`, and on any exception prints `[{"error": str(e)}]` instead.

Numbers are modelled as real numbers. Records are modelled as structures of
optional fields, mirroring the JSON objects the script consumes. Fallible
steps are modelled with `Except String`.
-/

/-- The dot product local of `cosine_similarity`:
`sum(a*b for a,b in zip(v1, v2))` (line 7 of the source). -/
def dot_product (v1 v2 : List ℝ) : ℝ :=
  ((v1.zip v2).map fun p => p.1 * p.2).sum

/-- The magnitude locals of `cosine_similarity`:
`math.sqrt(sum(a*a for a in v))` (lines 8-9 of the source). -/
noncomputable def magnitude (v : List ℝ) : ℝ :=
  Real.sqrt ((v.map fun a => a * a).sum)

/-- Lines 6-12 of the source: cosine similarity with the zero-magnitude
guard `if not magnitude1 or not magnitude2: return 0.0` (a float is falsy
exactly when it is zero; magnitudes are square roots, hence nonnegative). -/
noncomputable def cosine_similarity (v1 v2 : List ℝ) : ℝ :=
  if magnitude v1 = 0 ∨ magnitude v2 = 0 then 0
  else dot_product v1 v2 / (magnitude v1 * magnitude v2)

/-- A memory record as read from the JSON memory file: an object whose
fields `id`, `content`, `embedding`, `metadata` may each be absent. -/
structure MemRecord where
  id : Option String
  content : Option String
  embedding : Option (List ℝ)
  metadata : Option (List (String × String))

/-- One entry of the `results` list built by the loop in `main` (lines
30-36 of the source): `content`, `score`, `metadata`, `id`. -/
structure ScoredResult where
  content : String
  score : ℝ
  metadata : List (String × String)
  id : String

/-- The guard on lines 26-27 of the source:
`'embedding' not in mem or not mem['embedding']` (negated): the record
participates in scoring exactly when it has a non-empty embedding. -/
def hasEmb (m : MemRecord) : Bool :=
  match m.embedding with
  | none => false
  | some e => !e.isEmpty

/-- The scoring loop of `main` (lines 24-36 of the source). Records
without a non-empty embedding are skipped. A participating record is
turned into a `ScoredResult` via `mem['content']` (which raises `KeyError`
when the field is absent, modelled as `Except.error`), `mem.get('metadata',
{})` and `mem.get('id', 'unknown')`. Any raised exception aborts the whole
loop, as in the enclosing `try` block. -/
noncomputable def scoreCandidates (query : List ℝ) :
    List MemRecord → Except String (List ScoredResult)
  | [] => Except.ok []
  | mem :: rest =>
    match mem.embedding with
    | none => scoreCandidates query rest
    | some emb =>
      if emb.isEmpty then scoreCandidates query rest
      else
        match mem.content with
        | none => Except.error "KeyError: content"
        | some c =>
          match scoreCandidates query rest with
          | Except.error e => Except.error e
          | Except.ok rs =>
            Except.ok
              ({ content := c
                 score := cosine_similarity query emb
                 metadata := mem.metadata.getD []
                 id := mem.id.getD "unknown" } :: rs)

/-- One insertion step of a stable descending-by-score sort. A new element
(coming from earlier in the input) is placed before the first element whose
score is less than or equal to its own, so among equal scores the earlier
input element comes first. -/
noncomputable def insertByScore (x : ScoredResult) :
    List ScoredResult → List ScoredResult
  | [] => [x]
  | y :: ys => if y.score ≤ x.score then x :: y :: ys else y :: insertByScore x ys

/-- Line 39 of the source: `results.sort(key=lambda x: x['score'],
reverse=True)`. Python `list.sort` is documented to be stable, and
`reverse=True` sorts by descending key while keeping equal-key elements in
input order; this stable insertion sort has exactly that behavior. -/
noncomputable def sortByScoreDesc : List ScoredResult → List ScoredResult
  | [] => []
  | x :: xs => insertByScore x (sortByScoreDesc xs)

/-- Python list slicing `l[:k]` for an integer `k` (line 42 of the source):
for `k >= 0` the first `k` elements; for `k < 0` all but the last `|k|`. -/
def pySlice {α : Type} (k : ℤ) (l : List α) : List α :=
  if 0 ≤ k then l.take k.toNat
  else l.take (l.length - (-k).toNat)

/-- The ranking computation of `main` (lines 24-42 of the source): score
the candidates, sort by score descending, truncate to `topK`. -/
noncomputable def rank (query : List ℝ) (candidates : List MemRecord)
    (topK : ℤ) : Except String (List ScoredResult) :=
  match scoreCandidates query candidates with
  | Except.error e => Except.error e
  | Except.ok rs => Except.ok (pySlice topK (sortByScoreDesc rs))

/-- One element of the JSON array printed by `main`: either a scored
result or the single `{"error": message}` object of the fallback branch. -/
inductive OutputItem where
  | result : ScoredResult → OutputItem
  | error : String → OutputItem

/-- The whole of `main` (lines 14-46 of the source). Parsing the query
vector from `argv[1]`, parsing `top_k` from `argv[3]`, and reading plus
parsing the memory file are external fallible steps, modelled as `Except`
inputs in the order the script performs them; the `try`/`except` replaces
the output with the single-element error list on any failure. -/
noncomputable def runMain (queryArg : Except String (List ℝ))
    (topKArg : Except String ℤ)
    (memoryDoc : Except String (List MemRecord)) : List OutputItem :=
  match queryArg with
  | Except.error e => [OutputItem.error e]
  | Except.ok query =>
    match topKArg with
    | Except.error e => [OutputItem.error e]
    | Except.ok k =>
      match memoryDoc with
      | Except.error e => [OutputItem.error e]
      | Except.ok ms =>
        match rank query ms k with
        | Except.error e => [OutputItem.error e]
        | Except.ok rs => rs.map OutputItem.result

/-! Helper lemmas about `dot_product` and `magnitude`. -/

theorem dot_product_comm (v1 v2 : List ℝ) : dot_product v1 v2 = dot_product v2 v1 := by
  induction v1 generalizing v2 with
  | nil => cases v2 <;> simp [dot_product]
  | cons a v1 ih =>
    cases v2 with
    | nil => simp [dot_product]
    | cons b v2 =>
      simp only [dot_product, List.zip_cons_cons, List.map_cons, List.sum_cons]
      have h := ih v2
      simp only [dot_product] at h
      rw [h, mul_comm]

theorem sum_sq_eq_range (v : List ℝ) :
    (v.map fun a => a * a).sum = ∑ i ∈ Finset.range v.length, v.getD i 0 ^ 2 := by
  induction v with
  | nil => simp
  | cons a v ih =>
    rw [List.map_cons, List.sum_cons, List.length_cons, Finset.sum_range_succ', ih]
    simp [sq, add_comm]

theorem sum_sq_nonneg (v : List ℝ) : 0 ≤ (v.map fun a => a * a).sum := by
  apply List.sum_nonneg
  intro x hx
  simp only [List.mem_map] at hx
  obtain ⟨a, _, rfl⟩ := hx
  exact mul_self_nonneg a

theorem magnitude_nonneg (v : List ℝ) : 0 ≤ magnitude v := Real.sqrt_nonneg _

theorem magnitude_mul_self (v : List ℝ) :
    magnitude v * magnitude v = (v.map fun a => a * a).sum :=
  Real.mul_self_sqrt (sum_sq_nonneg v)

theorem magnitude_eq_zero_of_all_zero (v : List ℝ) (h : ∀ x ∈ v, x = 0) :
    magnitude v = 0 := by
  unfold magnitude
  have hs : (v.map fun a => a * a).sum = 0 := by
    apply List.sum_eq_zero
    intro x hx
    simp only [List.mem_map] at hx
    obtain ⟨a, ha, rfl⟩ := hx
    rw [h a ha, mul_zero]
  rw [hs, Real.sqrt_zero]

theorem abs_dot_product_le (v1 v2 : List ℝ) :
    |dot_product v1 v2| ≤ magnitude v1 * magnitude v2 := by
  have hdot : dot_product v1 v2 =
      ∑ i ∈ Finset.range (min v1.length v2.length), v1.getD i 0 * v2.getD i 0 := by
    induction v1 generalizing v2 with
    | nil => simp [dot_product]
    | cons a v1 ih =>
      cases v2 with
      | nil => simp [dot_product]
      | cons b v2 =>
        simp only [dot_product, List.zip_cons_cons, List.map_cons, List.sum_cons,
          List.length_cons, Nat.succ_min_succ, Finset.sum_range_succ']
        have h := ih v2
        simp only [dot_product] at h
        simp [h, add_comm]
  have hcs := Finset.sum_mul_sq_le_sq_mul_sq (Finset.range (min v1.length v2.length))
    (fun i => v1.getD i 0) (fun i => v2.getD i 0)
  have h1 : (∑ i ∈ Finset.range (min v1.length v2.length), v1.getD i 0 ^ 2) ≤
      (v1.map fun a => a * a).sum := by
    rw [sum_sq_eq_range]
    apply Finset.sum_le_sum_of_subset_of_nonneg
    · exact Finset.range_subset.mpr (Nat.min_le_left _ _)
    · intro i _ _
      exact sq_nonneg _
  have h2 : (∑ i ∈ Finset.range (min v1.length v2.length), v2.getD i 0 ^ 2) ≤
      (v2.map fun a => a * a).sum := by
    rw [sum_sq_eq_range]
    apply Finset.sum_le_sum_of_subset_of_nonneg
    · exact Finset.range_subset.mpr (Nat.min_le_right _ _)
    · intro i _ _
      exact sq_nonneg _
  have hsq : dot_product v1 v2 ^ 2 ≤
      ((v1.map fun a => a * a).sum) * ((v2.map fun a => a * a).sum) := by
    rw [hdot]
    refine le_trans hcs (mul_le_mul h1 h2 ?_ ?_)
    · exact Finset.sum_nonneg fun i _ => sq_nonneg _
    · exact sum_sq_nonneg v1
  have habs : |dot_product v1 v2| =
      Real.sqrt (dot_product v1 v2 ^ 2) := (Real.sqrt_sq_eq_abs _).symm
  rw [habs]
  calc Real.sqrt (dot_product v1 v2 ^ 2)
      ≤ Real.sqrt (((v1.map fun a => a * a).sum) * ((v2.map fun a => a * a).sum)) :=
        Real.sqrt_le_sqrt hsq
    _ = magnitude v1 * magnitude v2 := by
        rw [Real.sqrt_mul (sum_sq_nonneg v1)]
        rfl

/-- C7: for every pair of vectors, also of unequal length, `cosine_similarity`
is a total function (it raises no error) and its dot product sums
contributions only over the index-paired positions up to the shorter
length: zip-to-shortest semantics. -/
theorem dot_product_zip_shortest (v1 v2 : List ℝ) :
    dot_product v1 v2 =
      ∑ i ∈ Finset.range (min v1.length v2.length), v1.getD i 0 * v2.getD i 0 := by
  induction v1 generalizing v2 with
  | nil => simp [dot_product]
  | cons a v1 ih =>
    cases v2 with
    | nil => simp [dot_product]
    | cons b v2 =>
      simp only [dot_product, List.zip_cons_cons, List.map_cons, List.sum_cons,
        List.length_cons, Nat.succ_min_succ, Finset.sum_range_succ']
      have h := ih v2
      simp only [dot_product] at h
      simp [h, add_comm]

/-- C6: whenever either magnitude is exactly zero — in particular when
either vector is empty or all-zero — `cosine_similarity` returns `0` (no
division is attempted); `score(v, zero_vector) = 0` in both argument
orders, for every `v` including the zero vector itself. -/
theorem cosine_similarity_zero_magnitude (v1 v2 : List ℝ) :
    (magnitude v1 = 0 ∨ magnitude v2 = 0 → cosine_similarity v1 v2 = 0) ∧
    ((∀ x ∈ v2, x = 0) →
      cosine_similarity v1 v2 = 0 ∧ cosine_similarity v2 v1 = 0) := by
  constructor
  · intro h
    unfold cosine_similarity
    rw [if_pos h]
  · intro h
    have hm : magnitude v2 = 0 := magnitude_eq_zero_of_all_zero v2 h
    constructor
    · unfold cosine_similarity
      rw [if_pos (Or.inr hm)]
    · unfold cosine_similarity
      rw [if_pos (Or.inl hm)]

/-- Witness for C6 at a concrete input: the zero vector `[0, 0]` against
`[1]` (which also has mismatched length) scores `0` in both orders. -/
theorem cosine_similarity_zero_magnitude_witness :
    cosine_similarity [1] [0, 0] = 0 ∧ cosine_similarity [0, 0] [1] = 0 :=
  (cosine_similarity_zero_magnitude [1] [0, 0]).2 (by
    intro x hx
    rcases List.mem_cons.mp hx with h | hx2
    · exact h
    · rcases List.mem_cons.mp hx2 with h | hx3
      · exact h
      · exact absurd hx3 (List.not_mem_nil x))

/-- C10: `cosine_similarity` is commutative, also for vectors of unequal
length and zero vectors. -/
theorem cosine_similarity_comm (v1 v2 : List ℝ) :
    cosine_similarity v1 v2 = cosine_similarity v2 v1 := by
  unfold cosine_similarity
  by_cases h : magnitude v1 = 0 ∨ magnitude v2 = 0
  · rw [if_pos h, if_pos (Or.symm h)]
  · rw [if_neg h, if_neg (fun hc => h (Or.symm hc)), dot_product_comm, mul_comm]

/-- C9: for every pair of vectors, also of unequal length, the value of
`cosine_similarity` lies in the closed interval `[-1, 1]` (the degenerate
zero-magnitude branch returns `0`). -/
theorem cosine_similarity_bounded (v1 v2 : List ℝ) :
    -1 ≤ cosine_similarity v1 v2 ∧ cosine_similarity v1 v2 ≤ 1 := by
  rw [← abs_le]
  unfold cosine_similarity
  by_cases h : magnitude v1 = 0 ∨ magnitude v2 = 0
  · rw [if_pos h]
    simp
  · rw [if_neg h]
    push_neg at h
    have h1 : 0 < magnitude v1 := lt_of_le_of_ne (magnitude_nonneg v1) (Ne.symm h.1)
    have h2 : 0 < magnitude v2 := lt_of_le_of_ne (magnitude_nonneg v2) (Ne.symm h.2)
    have hpos : 0 < magnitude v1 * magnitude v2 := mul_pos h1 h2
    rw [abs_div, abs_of_pos hpos]
    exact div_le_one_of_le₀ (abs_dot_product_le v1 v2) (le_of_lt hpos)

/-! Helper lemmas about the stable descending sort and Python slicing. -/

theorem length_insertByScore (x : ScoredResult) (l : List ScoredResult) :
    (insertByScore x l).length = l.length + 1 := by
  induction l with
  | nil => rfl
  | cons y ys ih =>
    simp only [insertByScore]
    by_cases h : y.score ≤ x.score
    · rw [if_pos h]
      rfl
    · rw [if_neg h]
      simp [ih]

theorem length_sortByScoreDesc (l : List ScoredResult) :
    (sortByScoreDesc l).length = l.length := by
  induction l with
  | nil => rfl
  | cons x xs ih =>
    simp only [sortByScoreDesc, length_insertByScore, ih, List.length_cons]

theorem mem_insertByScore (y x : ScoredResult) (l : List ScoredResult) :
    y ∈ insertByScore x l ↔ y = x ∨ y ∈ l := by
  induction l with
  | nil => simp [insertByScore]
  | cons z zs ih =>
    simp only [insertByScore]
    by_cases h : z.score ≤ x.score
    · rw [if_pos h]
      simp
    · rw [if_neg h]
      simp only [List.mem_cons, ih]
      tauto

theorem mem_sortByScoreDesc (y : ScoredResult) (l : List ScoredResult) :
    y ∈ sortByScoreDesc l ↔ y ∈ l := by
  induction l with
  | nil => simp [sortByScoreDesc]
  | cons x xs ih =>
    simp only [sortByScoreDesc, mem_insertByScore, ih, List.mem_cons]

theorem pairwise_insertByScore (x : ScoredResult) (l : List ScoredResult)
    (h : l.Pairwise fun a b => b.score ≤ a.score) :
    (insertByScore x l).Pairwise fun a b => b.score ≤ a.score := by
  induction l with
  | nil => simp [insertByScore]
  | cons y ys ih =>
    simp only [insertByScore]
    rcases List.pairwise_cons.mp h with ⟨hy, hys⟩
    by_cases hle : y.score ≤ x.score
    · rw [if_pos hle]
      refine List.pairwise_cons.mpr ⟨?_, h⟩
      intro z hz
      rcases List.mem_cons.mp hz with rfl | hz
      · exact hle
      · exact le_trans (hy z hz) hle
    · rw [if_neg hle]
      refine List.pairwise_cons.mpr ⟨?_, ih hys⟩
      intro z hz
      rcases (mem_insertByScore z x ys).mp hz with rfl | hz
      · exact le_of_not_le hle
      · exact hy z hz

theorem pairwise_sortByScoreDesc (l : List ScoredResult) :
    (sortByScoreDesc l).Pairwise fun a b => b.score ≤ a.score := by
  induction l with
  | nil => simp [sortByScoreDesc]
  | cons x xs ih => exact pairwise_insertByScore x (sortByScoreDesc xs) ih

theorem filter_insertByScore (s : ℝ) (x : ScoredResult) (l : List ScoredResult) :
    (insertByScore x l).filter (fun r => decide (r.score = s)) =
      if x.score = s then x :: l.filter (fun r => decide (r.score = s))
      else l.filter (fun r => decide (r.score = s)) := by
  induction l with
  | nil =>
    by_cases hx : x.score = s
    · rw [if_pos hx]
      simp [insertByScore, List.filter_cons, hx]
    · rw [if_neg hx]
      simp [insertByScore, List.filter_cons, hx]
  | cons y ys ih =>
    simp only [insertByScore]
    by_cases hle : y.score ≤ x.score
    · rw [if_pos hle]
      by_cases hx : x.score = s
      · rw [if_pos hx]
        simp [List.filter_cons, hx]
      · rw [if_neg hx]
        simp [List.filter_cons, hx]
    · rw [if_neg hle]
      by_cases hy : y.score = s
      · have hx : ¬x.score = s := fun hxs => hle (le_of_eq (hy.trans hxs.symm))
        rw [if_neg hx]
        simp [List.filter_cons, hy, hx, ih]
      · by_cases hx : x.score = s
        · rw [if_pos hx]
          simp [List.filter_cons, hy, hx, ih]
        · rw [if_neg hx]
          simp [List.filter_cons, hy, hx, ih]

theorem filter_sortByScoreDesc (s : ℝ) (l : List ScoredResult) :
    (sortByScoreDesc l).filter (fun r => decide (r.score = s)) =
      l.filter (fun r => decide (r.score = s)) := by
  induction l with
  | nil => rfl
  | cons x xs ih =>
    simp only [sortByScoreDesc, filter_insertByScore s x, ih]
    by_cases hx : x.score = s
    · rw [if_pos hx]
      simp [List.filter_cons, hx]
    · rw [if_neg hx]
      simp [List.filter_cons, hx]

theorem pySlice_eq_take {α : Type} (k : ℤ) (l : List α) :
    ∃ n, pySlice k l = l.take n := by
  unfold pySlice
  by_cases h : 0 ≤ k
  · exact ⟨k.toNat, by rw [if_pos h]⟩
  · exact ⟨l.length - (-k).toNat, by rw [if_neg h]⟩

theorem filter_take_append {α : Type} (p : α → Bool) (n : ℕ) (l : List α) :
    (l.take n).filter p ++ (l.drop n).filter p = l.filter p := by
  rw [← List.filter_append, List.take_append_drop]


/-! Helper lemmas about the scoring loop. -/

theorem scoreCandidates_cons_none (q : List ℝ) (m : MemRecord)
    (rest : List MemRecord) (hm : m.embedding = none) :
    scoreCandidates q (m :: rest) = scoreCandidates q rest := by
  simp only [scoreCandidates, hm]

theorem scoreCandidates_cons_empty (q : List ℝ) (m : MemRecord)
    (rest : List MemRecord) (e : List ℝ) (hm : m.embedding = some e)
    (he : e.isEmpty = true) :
    scoreCandidates q (m :: rest) = scoreCandidates q rest := by
  simp only [scoreCandidates, hm, he, if_true]

theorem scoreCandidates_cons_keep (q : List ℝ) (m : MemRecord)
    (rest : List MemRecord) (e : List ℝ) (hm : m.embedding = some e)
    (he : e.isEmpty = false) :
    scoreCandidates q (m :: rest) =
      match m.content with
      | none => Except.error "KeyError: content"
      | some c =>
        match scoreCandidates q rest with
        | Except.error er => Except.error er
        | Except.ok rs =>
          Except.ok
            ({ content := c
               score := cosine_similarity q e
               metadata := m.metadata.getD []
               id := m.id.getD "unknown" } :: rs) := by
  simp only [scoreCandidates, hm, he, Bool.false_eq_true, if_false]

theorem hasEmb_false_cases (m : MemRecord) (hf : hasEmb m = false) :
    m.embedding = none ∨ ∃ e, m.embedding = some e ∧ e.isEmpty = true := by
  unfold hasEmb at hf
  cases hm : m.embedding with
  | none => exact Or.inl rfl
  | some e =>
    rw [hm] at hf
    exact Or.inr ⟨e, rfl, by simpa using hf⟩

theorem hasEmb_true_cases (m : MemRecord) (hf : hasEmb m = true) :
    ∃ e, m.embedding = some e ∧ e.isEmpty = false := by
  unfold hasEmb at hf
  cases hm : m.embedding with
  | none => rw [hm] at hf; cases hf
  | some e =>
    rw [hm] at hf
    exact ⟨e, rfl, by simpa using hf⟩

theorem scoreCandidates_skip (q : List ℝ) (m : MemRecord)
    (rest : List MemRecord) (hf : hasEmb m = false) :
    scoreCandidates q (m :: rest) = scoreCandidates q rest := by
  rcases hasEmb_false_cases m hf with hm | ⟨e, hm, he⟩
  · exact scoreCandidates_cons_none q m rest hm
  · exact scoreCandidates_cons_empty q m rest e hm he

theorem scoreCandidates_filter (q : List ℝ) (ms : List MemRecord) :
    scoreCandidates q (ms.filter hasEmb) = scoreCandidates q ms := by
  induction ms with
  | nil => rfl
  | cons m ms ih =>
    cases hf : hasEmb m with
    | false =>
      rw [List.filter_cons, hf, if_neg (by simp), ih,
        scoreCandidates_skip q m ms hf]
    | true =>
      obtain ⟨e, hm, he⟩ := hasEmb_true_cases m hf
      rw [List.filter_cons, hf, if_pos rfl,
        scoreCandidates_cons_keep q m (ms.filter hasEmb) e hm he,
        scoreCandidates_cons_keep q m ms e hm he, ih]

theorem scoreCandidates_ok_mem (q : List ℝ) (ms : List MemRecord)
    (rs : List ScoredResult) (r : ScoredResult)
    (hok : scoreCandidates q ms = Except.ok rs) (hr : r ∈ rs) :
    ∃ m, m ∈ ms ∧ ∃ e, m.embedding = some e ∧ e ≠ [] ∧
      m.content = some r.content ∧ r.score = cosine_similarity q e ∧
      r.metadata = m.metadata.getD [] ∧ r.id = m.id.getD "unknown" := by
  induction ms generalizing rs with
  | nil =>
    simp only [scoreCandidates] at hok
    injection hok with hok
    subst hok
    cases hr
  | cons m ms ih =>
    cases hf : hasEmb m with
    | false =>
      rw [scoreCandidates_skip q m ms hf] at hok
      obtain ⟨m', hmem, rest⟩ := ih rs hok hr
      exact ⟨m', List.mem_cons_of_mem m hmem, rest⟩
    | true =>
      obtain ⟨e, hm, he⟩ := hasEmb_true_cases m hf
      rw [scoreCandidates_cons_keep q m ms e hm he] at hok
      cases hc : m.content with
      | none =>
        rw [hc] at hok
        cases hok
      | some c =>
        rw [hc] at hok
        cases hrec : scoreCandidates q ms with
        | error er =>
          rw [hrec] at hok
          cases hok
        | ok rs' =>
          rw [hrec] at hok
          injection hok with hok
          subst hok
          rcases List.mem_cons.mp hr with rfl | hr'
          · refine ⟨m, List.mem_cons_self m ms, e, hm, ?_, hc, rfl, rfl, rfl⟩
            intro hnil
            rw [hnil] at he
            cases he
          · obtain ⟨m', hmem, rest⟩ := ih rs' hrec hr'
            exact ⟨m', List.mem_cons_of_mem m hmem, rest⟩

theorem scoreCandidates_ok_of_content (q : List ℝ) (ms : List MemRecord)
    (h : ∀ m ∈ ms, hasEmb m = true → m.content.isSome = true) :
    ∃ rs, scoreCandidates q ms = Except.ok rs ∧ rs.length = ms.countP hasEmb := by
  induction ms with
  | nil => exact ⟨[], rfl, rfl⟩
  | cons m ms ih =>
    obtain ⟨rs, hok, hlen⟩ := ih fun m' hm' => h m' (List.mem_cons_of_mem m hm')
    cases hf : hasEmb m with
    | false =>
      refine ⟨rs, ?_, ?_⟩
      · rw [scoreCandidates_skip q m ms hf, hok]
      · rw [hlen, List.countP_cons, hf]
        simp
    | true =>
      obtain ⟨e, hm, he⟩ := hasEmb_true_cases m hf
      obtain ⟨c, hc⟩ := Option.isSome_iff_exists.mp (h m (List.mem_cons_self m ms) hf)
      refine ⟨(⟨c, cosine_similarity q e, m.metadata.getD [],
        m.id.getD "unknown"⟩ : ScoredResult) :: rs, ?_, ?_⟩
      · rw [scoreCandidates_cons_keep q m ms e hm he, hc, hok]
      · rw [List.length_cons, hlen, List.countP_cons, hf]
        simp

/-- C1 counterexample: a candidate record with a non-empty embedding but a
missing `content` field makes the whole ranking fail (the loop reads
`mem['content']` unconditionally and the resulting `KeyError` is caught
only by the top-level fallback), contradicting the claim that no missing
field of an individual record causes the operation to fail. The record
below has an `id`, a non-empty embedding, and no `content`/`metadata`. -/
theorem rank_missing_content_fails :
    rank [1] [(⟨some "a", none, some [1], none⟩ : MemRecord)] 1 =
      Except.error "KeyError: content" := by
  rfl

/-- C1 (amended): for every candidate record that has a non-empty embedding
AND a present `content` field, the scoring loop never fails on that record
and produces exactly one ScoredResult for it, with a missing `id`
defaulting to the string "unknown" and missing `metadata` defaulting to the
empty mapping; any failure can only come from the remaining records. -/
theorem scoreCandidates_defaults (query : List ℝ) (rest : List MemRecord)
    (m : MemRecord) (e : List ℝ) (c : String)
    (hm : m.embedding = some e) (hne : e ≠ []) (hc : m.content = some c) :
    scoreCandidates query (m :: rest) =
      match scoreCandidates query rest with
      | Except.error er => Except.error er
      | Except.ok rs =>
        Except.ok
          ({ content := c
             score := cosine_similarity query e
             metadata := m.metadata.getD []
             id := m.id.getD "unknown" } :: rs) := by
  have he : e.isEmpty = false := by
    cases e with
    | nil => exact absurd rfl hne
    | cons a as => rfl
  rw [scoreCandidates_cons_keep query m rest e hm he, hc]

/-- Witness for C1 (amended) at a concrete input: a record with embedding
`[1]` and content but neither `id` nor `metadata` is scored into a
ScoredResult with `id = "unknown"` and empty metadata. -/
theorem scoreCandidates_defaults_witness :
    scoreCandidates [2] [(⟨none, some "x", some [1], none⟩ : MemRecord)] =
      Except.ok [(⟨"x", cosine_similarity [2] [1], [], "unknown"⟩ : ScoredResult)] :=
  (scoreCandidates_defaults [2] [] (⟨none, some "x", some [1], none⟩ : MemRecord)
    [1] "x" rfl (List.cons_ne_nil 1 []) rfl).trans rfl

/-- C2: the descending sort is stable and truncation keeps a prefix, so for
every score value `s`, the results of score `s` in the output of `rank`
are a prefix of the results of score `s` in the scored sequence, which is
itself in input candidate order: any two equal-score results appear in the
same relative order as the corresponding candidates in the input. -/
theorem rank_stable_ties (query : List ℝ) (candidates : List MemRecord)
    (topK : ℤ) (scored out : List ScoredResult) (s : ℝ)
    (hs : scoreCandidates query candidates = Except.ok scored)
    (hout : rank query candidates topK = Except.ok out) :
    ∃ t, out.filter (fun r => decide (r.score = s)) ++ t =
      scored.filter (fun r => decide (r.score = s)) := by
  unfold rank at hout
  rw [hs] at hout
  injection hout with hout
  subst hout
  obtain ⟨n, hn⟩ := pySlice_eq_take topK (sortByScoreDesc scored)
  rw [hn]
  refine ⟨((sortByScoreDesc scored).drop n).filter (fun r => decide (r.score = s)), ?_⟩
  rw [filter_take_append, filter_sortByScoreDesc]

/-- C3: for every non-negative `topK`, query, and candidate sequence of
well-formed records (each record has its `content` field, as in the spec's
data model in which only `id`, `embedding`, `metadata` are optional),
`rank` succeeds and the output length is exactly the minimum of `topK` and
the number of candidates with a non-empty embedding. -/
theorem rank_length_min (query : List ℝ) (candidates : List MemRecord)
    (topK : ℤ) (hk : 0 ≤ topK)
    (hc : ∀ m ∈ candidates, hasEmb m = true → m.content.isSome = true) :
    ∃ out, rank query candidates topK = Except.ok out ∧
      out.length = min topK.toNat (candidates.countP hasEmb) := by
  obtain ⟨rs, hok, hlen⟩ := scoreCandidates_ok_of_content query candidates hc
  refine ⟨pySlice topK (sortByScoreDesc rs), ?_, ?_⟩
  · unfold rank
    rw [hok]
  · unfold pySlice
    rw [if_pos hk, List.length_take, length_sortByScoreDesc, hlen]

/-- C4: whenever `rank` succeeds, the scores of the output are
non-increasing by position (descending-score order). -/
theorem rank_scores_sorted (query : List ℝ) (candidates : List MemRecord)
    (topK : ℤ) (out : List ScoredResult)
    (hout : rank query candidates topK = Except.ok out) :
    out.Pairwise fun a b => b.score ≤ a.score := by
  unfold rank at hout
  cases hok : scoreCandidates query candidates with
  | error er =>
    rw [hok] at hout
    cases hout
  | ok rs =>
    rw [hok] at hout
    injection hout with hout
    subst hout
    obtain ⟨n, hn⟩ := pySlice_eq_take topK (sortByScoreDesc rs)
    rw [hn]
    exact (pairwise_sortByScoreDesc rs).sublist (List.take_sublist n _)

/-- C5: candidates without an embedding (or with an empty one) are
invisible to `rank`: removing them changes nothing, for any query and
`topK` — so they are never scored, never cause an error, and never appear
in the output; moreover every output element comes from a candidate with a
non-empty embedding. -/
theorem rank_excludes_embeddingless (query : List ℝ)
    (candidates : List MemRecord) (topK : ℤ) :
    rank query candidates topK = rank query (candidates.filter hasEmb) topK ∧
    ∀ out, rank query candidates topK = Except.ok out →
      ∀ r ∈ out, ∃ m, m ∈ candidates ∧ ∃ e, m.embedding = some e ∧ e ≠ [] ∧
        m.content = some r.content ∧ r.score = cosine_similarity query e ∧
        r.metadata = m.metadata.getD [] ∧ r.id = m.id.getD "unknown" := by
  constructor
  · unfold rank
    rw [scoreCandidates_filter]
  · intro out hout r hr
    unfold rank at hout
    cases hok : scoreCandidates query candidates with
    | error er =>
      rw [hok] at hout
      cases hout
    | ok rs =>
      rw [hok] at hout
      injection hout with hout
      subst hout
      have hr' : r ∈ rs := by
        obtain ⟨n, hn⟩ := pySlice_eq_take topK (sortByScoreDesc rs)
        rw [hn] at hr
        exact (mem_sortByScoreDesc r rs).mp ((List.take_sublist n _).mem hr)
      exact scoreCandidates_ok_mem query candidates rs r hok hr'

/-- C8: for all (possibly failed) parses of the query vector, of `top_k`,
and of the memory document, the printed output is either exactly a
single-element list holding one error object, or a list of scored results
only — an error marker replaces the normal result entirely and is never
mixed with partial results. -/
theorem runMain_error_is_singleton (queryArg : Except String (List ℝ))
    (topKArg : Except String ℤ)
    (memoryDoc : Except String (List MemRecord)) :
    (∃ e, runMain queryArg topKArg memoryDoc = [OutputItem.error e]) ∨
    (∃ rs, runMain queryArg topKArg memoryDoc =
      List.map OutputItem.result rs) := by
  unfold runMain
  cases queryArg with
  | error e => exact Or.inl ⟨e, rfl⟩
  | ok q =>
    cases topKArg with
    | error e => exact Or.inl ⟨e, rfl⟩
    | ok k =>
      cases memoryDoc with
      | error e => exact Or.inl ⟨e, rfl⟩
      | ok ms =>
        cases h : rank q ms k with
        | error e =>
          refine Or.inl ⟨e, ?_⟩
          simp only [h]
        | ok rs =>
          refine Or.inr ⟨rs, ?_⟩
          simp only [h]

/-- Witness for C2 at a concrete input: one candidate with embedding `[2]`
against query `[3]` and `topK = 1`; the equal-score results of the output
are a prefix of those of the scored sequence. -/
theorem rank_stable_ties_witness :
    ∃ t, (([(⟨"y", cosine_similarity [3] [2], [], "unknown"⟩ : ScoredResult)]).filter
        (fun r => decide (r.score = (0:ℝ)))) ++ t =
      ([(⟨"y", cosine_similarity [3] [2], [], "unknown"⟩ : ScoredResult)]).filter
        (fun r => decide (r.score = (0:ℝ))) :=
  rank_stable_ties [3] [(⟨none, some "y", some [2], none⟩ : MemRecord)] 1
    [(⟨"y", cosine_similarity [3] [2], [], "unknown"⟩ : ScoredResult)]
    [(⟨"y", cosine_similarity [3] [2], [], "unknown"⟩ : ScoredResult)] 0 rfl rfl

/-- Witness for C3 at a concrete input: two candidates, one without an
embedding, with `topK = 2`: the output has length `min 2 1 = 1`. -/
theorem rank_length_min_witness :
    ∃ out, rank [3] [(⟨some "a", some "x", none, none⟩ : MemRecord),
        (⟨none, some "y", some [2], none⟩ : MemRecord)] 2 = Except.ok out ∧
      out.length = min (2:ℤ).toNat
        ([(⟨some "a", some "x", none, none⟩ : MemRecord),
          (⟨none, some "y", some [2], none⟩ : MemRecord)].countP hasEmb) :=
  rank_length_min [3] [(⟨some "a", some "x", none, none⟩ : MemRecord),
    (⟨none, some "y", some [2], none⟩ : MemRecord)] 2 (by decide)
    (by
      intro m hm _
      rcases List.mem_cons.mp hm with rfl | hm2
      · rfl
      · rcases List.mem_cons.mp hm2 with rfl | hm3
        · rfl
        · cases hm3)

/-- Witness for C4 at a concrete input: the output of `rank` for one
embedded candidate is sorted by non-increasing score. -/
theorem rank_scores_sorted_witness :
    ([(⟨"y", cosine_similarity [3] [2], [], "unknown"⟩ : ScoredResult)]).Pairwise
      (fun a b => b.score ≤ a.score) :=
  rank_scores_sorted [3] [(⟨none, some "y", some [2], none⟩ : MemRecord)] 1
    [(⟨"y", cosine_similarity [3] [2], [], "unknown"⟩ : ScoredResult)] rfl

/-- Witness for C5 at a concrete input: a record without an embedding can
be filtered out of the candidate list without changing `rank`, and the one
output element is traced back to the embedded candidate. -/
theorem rank_excludes_embeddingless_witness :
    (rank [3] [(⟨some "a", some "x", none, none⟩ : MemRecord),
        (⟨none, some "y", some [2], none⟩ : MemRecord)] 1 =
      rank [3] ([(⟨some "a", some "x", none, none⟩ : MemRecord),
        (⟨none, some "y", some [2], none⟩ : MemRecord)].filter hasEmb) 1) ∧
    ∃ m, m ∈ [(⟨some "a", some "x", none, none⟩ : MemRecord),
        (⟨none, some "y", some [2], none⟩ : MemRecord)] ∧
      ∃ e, m.embedding = some e ∧ e ≠ [] ∧
        m.content = some (⟨"y", cosine_similarity [3] [2], [], "unknown"⟩ :
          ScoredResult).content ∧
        (⟨"y", cosine_similarity [3] [2], [], "unknown"⟩ :
          ScoredResult).score = cosine_similarity [3] e ∧
        (⟨"y", cosine_similarity [3] [2], [], "unknown"⟩ :
          ScoredResult).metadata = m.metadata.getD [] ∧
        (⟨"y", cosine_similarity [3] [2], [], "unknown"⟩ :
          ScoredResult).id = m.id.getD "unknown" :=
  ⟨(rank_excludes_embeddingless [3] [(⟨some "a", some "x", none, none⟩ : MemRecord),
      (⟨none, some "y", some [2], none⟩ : MemRecord)] 1).1,
   (rank_excludes_embeddingless [3] [(⟨some "a", some "x", none, none⟩ : MemRecord),
      (⟨none, some "y", some [2], none⟩ : MemRecord)] 1).2
    [(⟨"y", cosine_similarity [3] [2], [], "unknown"⟩ : ScoredResult)] rfl
    (⟨"y", cosine_similarity [3] [2], [], "unknown"⟩ : ScoredResult)
    (List.mem_cons_self _ _)⟩
